import Mathlib

/-!
Shallow embedding of the wotmap map-annotation pipeline (`src/tools/overlap.py`):
RGBA color parsing with a forced alpha override, Catmull-Rom spline sampling,
icon and label placement geometry, alpha compositing, the canvas pipeline of
`main`, and grid tile export.
-/

namespace Wotmap

/-- Python's `round` (the source always uses `int(round(v))` on nonnegative-
or-arbitrary floats): round half to even, then truncate-to-int is the identity
on the already-integral result. -/
def pyRound (q : ℚ) : ℤ :=
  if q - ⌊q⌋ < 1/2 then ⌊q⌋
  else if 1/2 < q - ⌊q⌋ then ⌊q⌋ + 1
  else if ⌊q⌋ % 2 = 0 then ⌊q⌋ else ⌊q⌋ + 1

/-- The first code point of every Unicode `Nd` (decimal digit) block, per
Unicode 15.0 as shipped with CPython 3.12: each block is ten consecutive code
points whose digit values run 0..9 from the block's base.  Python's `\d` on a
str pattern (no `re.ASCII`) matches exactly the `Nd` characters, and `int()`
parses them by these digit values. -/
def digitBases : List ℕ :=
  [0x30, 0x660, 0x6f0, 0x7c0, 0x966, 0x9e6, 0xa66, 0xae6, 0xb66, 0xbe6,
   0xc66, 0xce6, 0xd66, 0xde6, 0xe50, 0xed0, 0xf20, 0x1040, 0x1090, 0x17e0,
   0x1810, 0x1946, 0x19d0, 0x1a80, 0x1a90, 0x1b50, 0x1bb0, 0x1c40, 0x1c50,
   0xa620, 0xa8d0, 0xa900, 0xa9d0, 0xa9f0, 0xaa50, 0xabf0, 0xff10,
   0x104a0, 0x10d30, 0x11066, 0x110f0, 0x11136, 0x111d0, 0x112f0, 0x11450,
   0x114d0, 0x11650, 0x116c0, 0x11730, 0x118e0, 0x11950, 0x11c50, 0x11d50,
   0x11da0, 0x11f50, 0x16a60, 0x16ac0, 0x16b50,
   0x1d7ce, 0x1d7d8, 0x1d7e2, 0x1d7ec, 0x1d7f6,
   0x1e140, 0x1e2f0, 0x1e4f0, 0x1e950, 0x1fbf0]

/-- The regex class `\d` of `parse_rgba_force_70a`: a Unicode decimal digit,
i.e. a character of some `Nd` block. -/
def isPyDigit (c : Char) : Bool :=
  digitBases.any fun b => b ≤ c.toNat && c.toNat < b + 10

/-- The regex class `\s` of `parse_rgba_force_70a`: Python's Unicode
whitespace (`Py_UNICODE_ISSPACE`): the ASCII controls `\t\n\x0b\x0c\r`, the
separators `\x1c`-`\x1f`, space, `\x85`, no-break space, Ogham space mark,
the en-quad through hair-space range, line/paragraph separator, narrow no-break
space, medium mathematical space and ideographic space. -/
def isPySpace (c : Char) : Bool :=
  (0x9 ≤ c.toNat && c.toNat ≤ 0xd) || (0x1c ≤ c.toNat && c.toNat ≤ 0x1f)
    || c.toNat = 0x20 || c.toNat = 0x85 || c.toNat = 0xa0 || c.toNat = 0x1680
    || (0x2000 ≤ c.toNat && c.toNat ≤ 0x200a) || c.toNat = 0x2028
    || c.toNat = 0x2029 || c.toNat = 0x202f || c.toNat = 0x205f
    || c.toNat = 0x3000

/-- Digit value of an `Nd` character: its offset from its block's base
(Python's `Py_UNICODE_TODECIMAL`, used by `int()`); 0 for non-digits. -/
def pyDigitVal (c : Char) : ℕ :=
  match digitBases.find? (fun b => b ≤ c.toNat && c.toNat < b + 10) with
  | some b => c.toNat - b
  | none => 0

/-- Numeric value of a captured digit run, as Python's `int` computes it. -/
def digitsVal (l : List Char) : ℕ :=
  l.foldl (fun a c => 10 * a + pyDigitVal c) 0

/-- An RGBA quadruple `(r, g, b, a)`, channels as in the source's int tuples. -/
abbrev RGBA := ℕ × ℕ × ℕ × ℕ

/-- The alpha override constant `int(0.75 * 255)` used by `parse_rgba_force_70a`
(the float product `0.75 * 255 = 191.25` is exact, and `int` truncates). -/
def ALPHA_OVERRIDE : ℕ := (⌊(0.75 : ℚ) * 255⌋).toNat

/-- The regex match `re.match(r"^rgb\(\s*(\d+)\s*,\s*(\d+)\s*,\s*(\d+)\)$", s, re.I)`
as a deterministic scanner (the pattern is deterministic: the space, digit and
separator classes are pairwise disjoint, so greedy matching needs no backtracking).
In Python, `$` matches at the end of the string or just before a trailing
newline, hence the final `r9 = []` or `r9 = ['\n']` alternative. -/
def matchRgb : List Char → Option (ℕ × ℕ × ℕ)
  | c1 :: c2 :: c3 :: c4 :: rest =>
    if c1.toLower = 'r' ∧ c2.toLower = 'g' ∧ c3.toLower = 'b' ∧ c4 = '(' then
      let r1 := rest.dropWhile isPySpace
      let d1 := r1.takeWhile isPyDigit
      let r2 := (r1.dropWhile isPyDigit).dropWhile isPySpace
      match d1, r2 with
      | [], _ => none
      | _ :: _, ',' :: r3 =>
        let r4 := r3.dropWhile isPySpace
        let d2 := r4.takeWhile isPyDigit
        let r5 := (r4.dropWhile isPyDigit).dropWhile isPySpace
        match d2, r5 with
        | [], _ => none
        | _ :: _, ',' :: r6 =>
          let r7 := r6.dropWhile isPySpace
          let d3 := r7.takeWhile isPyDigit
          let r8 := r7.dropWhile isPyDigit
          match d3, r8 with
          | [], _ => none
          | _ :: _, ')' :: r9 =>
            if r9 = [] ∨ r9 = ['\n'] then
              some (digitsVal d1, digitsVal d2, digitsVal d3)
            else none
          | _, _ => none
        | _, _ => none
      | _, _ => none
    else none
  | _ => none

/-- Function `parse_rgba_force_70a`: parse an `rgb(r,g,b)` string, forcing the alpha
channel to the fixed override; fall back to red on any parse failure. -/
def parse_rgba_force_70a (s : String) : RGBA :=
  match matchRgb s.data with
  | none => (255, 0, 0, ALPHA_OVERRIDE)
  | some (r, g, b) => (r, g, b, ALPHA_OVERRIDE)

/-- A 2D point in image pixel space (the source uses float pairs). -/
abbrev Point := ℚ × ℚ

/-- One coordinate of the cubic Catmull-Rom basis evaluation, exactly the
`x = 0.5 * (...)` expression in `catmull_rom_spline`. -/
def crCoord (p0 p1 p2 p3 t : ℚ) : ℚ :=
  0.5 * ((2 * p1) + (-p0 + p2) * t + (2 * p0 - 5 * p1 + 4 * p2 - p3) * (t * t)
    + (-p0 + 3 * p1 - 3 * p2 + p3) * (t * t * t))

/-- A sampled Catmull-Rom point for one window `(p0, p1, p2, p3)` at parameter `t`. -/
def crPoint (p0 p1 p2 p3 : Point) (t : ℚ) : Point :=
  (crCoord p0.1 p1.1 p2.1 p3.1 t, crCoord p0.2 p1.2 p2.2 p3.2 t)

/-- The `for i in range(1, len(pts) - 2)` loop of `catmull_rom_spline`: each
iteration works on the window `pts[i-1], pts[i], pts[i+1], pts[i+2]`, i.e. on
consecutive windows of four points, sampling `s` parameters `t = j / s`. -/
def crSegments (s : ℕ) : List Point → List Point
  | p0 :: p1 :: p2 :: p3 :: rest =>
      ((List.range s).map fun j : ℕ => crPoint p0 p1 p2 p3 ((j : ℚ) / (s : ℚ)))
        ++ crSegments s (p1 :: p2 :: p3 :: rest)
  | _ => []

/-- Function `catmull_rom_spline`: pad the control points with phantom endpoints
(`[pts[-1]] + pts + [pts[0], pts[1]]` when closed, `[pts[0]] + pts + [pts[-1]]`
otherwise), sample each window, and append the exact final control point. -/
def catmull_rom_spline (points : List Point) (samples_per_seg : ℕ)
    (closed : Bool) : List Point :=
  match points with
  | [] => []
  | [p] => [p]
  | p0 :: p1 :: rest =>
    let pts :=
      if closed then
        (p0 :: p1 :: rest).getLast (by simp) :: (p0 :: p1 :: rest) ++ [p0, p1]
      else
        p0 :: (p0 :: p1 :: rest) ++ [(p0 :: p1 :: rest).getLast (by simp)]
    crSegments samples_per_seg pts ++ [(p0 :: p1 :: rest).getLast (by simp)]

/-- An in-memory raster: fixed pixel dimensions plus a pixel function
(the PIL `Image` objects the pipeline manipulates). -/
structure Img (α : Type) where
  width : ℕ
  height : ℕ
  pix : ℤ → ℤ → α

/-- PIL `Image.new("RGBA", (w, h), c)`: a fresh raster filled with one color. -/
def Img.new (α : Type) (w h : ℕ) (c : α) : Img α :=
  ⟨w, h, fun _ _ => c⟩

/-- PIL `im.alpha_composite(layer)` with no offsets pairs the pixels of the two
rasters at equal coordinates under a per-pixel blend; the result keeps the
base raster's dimensions. -/
def compositeWith (f : α → α → α) (base layer : Img α) : Img α :=
  { base with pix := fun i j => f (base.pix i j) (layer.pix i j) }

/-- PIL `resize((w, h), LANCZOS)`: a raster of exactly the requested target
size whose content comes from a resampling kernel over the old raster; the
Lanczos kernel itself is the image library's and is kept abstract. -/
def resize (kernel : Img α → ℤ → ℤ → α) (im : Img α) (w h : ℕ) : Img α :=
  ⟨w, h, kernel im⟩

/-- An `ImageDraw` primitive (`ldraw.line`, `draw.text`): it writes pixels into
the same buffer in place and never changes the raster's dimensions. -/
def drawOn (stamp : (ℤ → ℤ → α) → ℤ → ℤ → α) (im : Img α) : Img α :=
  { im with pix := stamp im.pix }

/-- Function `alpha_composite_center`: place an icon with its top-left corner at
`(int(round(x - w/2)), int(round(y - h/2)))`, blending icon pixels over the
base inside the icon's rectangle. -/
def alpha_composite_center (blend : α → α → α) (base icon : Img α)
    (c : ℚ × ℚ) : Img α :=
  let tl : ℤ × ℤ := (pyRound (c.1 - (icon.width : ℚ) / 2),
                     pyRound (c.2 - (icon.height : ℚ) / 2))
  { base with
    pix := fun i j =>
      if tl.1 ≤ i ∧ i < tl.1 + icon.width ∧ tl.2 ≤ j ∧ j < tl.2 + icon.height then
        blend (base.pix i j) (icon.pix (i - tl.1) (j - tl.2))
      else base.pix i j }

/-- A premultiplied-alpha RGBA pixel with exact rational channels, the value
space for the "standard over" compositing the border layer uses. -/
structure Px where
  r : ℚ
  g : ℚ
  b : ℚ
  a : ℚ
deriving DecidableEq

/-- Porter-Duff "over" on premultiplied-alpha pixels
(`out = src + dst * (1 - src.a)`): the standard source-over operator
`im.alpha_composite(layer)` applies (dst = base pixel, src = layer pixel). -/
def pxOver (dst src : Px) : Px :=
  ⟨src.r + dst.r * (1 - src.a), src.g + dst.g * (1 - src.a),
   src.b + dst.b * (1 - src.a), src.a + dst.a * (1 - src.a)⟩

/-- A premultiplied pixel is well-formed when every color channel lies between
0 and its alpha (so alpha 0 forces the transparent pixel). -/
def Px.Wf (p : Px) : Prop :=
  0 ≤ p.r ∧ p.r ≤ p.a ∧ 0 ≤ p.g ∧ p.g ≤ p.a ∧ 0 ≤ p.b ∧ p.b ≤ p.a

/-- PIL `Image.crop((left, upper, right, lower))`: a raster of size
`(right - left) × (lower - upper)` reading the source at the shifted
coordinates. -/
def crop (im : Img α) (left upper right lower : ℕ) : Img α :=
  ⟨right - left, lower - upper, fun i j => im.pix ((left : ℤ) + i) ((upper : ℤ) + j)⟩

/-- The `{n:02d}` format: decimal, left-padded with zeros to width two. -/
def zeroPad2 (n : ℕ) : String :=
  if n < 10 then "0" ++ toString n else toString n

/-- One exported tile: its file name, its crop box in the source canvas, and
the cropped raster itself. -/
structure Tile (α : Type) where
  name : String
  left : ℕ
  upper : ℕ
  right : ℕ
  lower : ℕ
  img : Img α

/-- The loop body of `export_tiles` for grid cell `(ix, iy)`: crop box
`(ix*T, iy*T, min(ix*T + T, W), min(iy*T + T, H))` (edge tiles are smaller,
never padded) and name `f"{base_name}_x{ix:02d}_y{iy:02d}.{fmt.lower()}"`. -/
def tileAt (im : Img α) (tile_size : ℕ) (base_name fmt : String) (ix iy : ℕ) :
    Tile α :=
  let left := ix * tile_size
  let upper := iy * tile_size
  let right := min (left + tile_size) im.width
  let lower := min (upper + tile_size) im.height
  { name := base_name ++ "_x" ++ zeroPad2 ix ++ "_y" ++ zeroPad2 iy
      ++ "." ++ fmt.toLower
    left := left, upper := upper, right := right, lower := lower
    img := crop im left upper right lower }

/-- Function `export_tiles`: `tx = ceil(W / tile_size)` columns and `ty = ceil(H / tile_size)`
rows (`math.ceil` of the exact quotient, i.e. `(n + T - 1) / T` on naturals),
iterated rows-outer exactly as the source's nested `for` loops. -/
def export_tiles (im : Img α) (tile_size : ℕ) (base_name fmt : String) :
    List (Tile α) :=
  let tx := (im.width + tile_size - 1) / tile_size
  let ty := (im.height + tile_size - 1) / tile_size
  (List.range ty).flatMap fun iy =>
    (List.range tx).map fun ix => tileAt im tile_size base_name fmt ix iy

/-- The text-measurement interface `draw.textbbox((0, 0), label, font, stroke_width)`:
label text and stroke width in, `(x0, y0, x1, y1)` out; the font engine itself
is the image library's and is kept abstract. -/
abbrev TextBBox := String → ℕ → ℤ × ℤ × ℤ × ℤ

/-- The river-label placement of `main`: shift the anchor by `x += 50`, measure
the bounding box with `stroke_width = 2`, and draw at
`(int(round(x - tw/2)), int(round(y - th/2)))`. -/
def river_label_pos (bboxOf : TextBBox) (coord : ℚ × ℚ) (label : String) : ℤ × ℤ :=
  let x := coord.1 + 50
  let y := coord.2
  let bb := bboxOf label 2
  let tw : ℤ := bb.2.2.1 - bb.1
  let th : ℤ := bb.2.2.2 - bb.2.1
  (pyRound (x - (tw : ℚ) / 2), pyRound (y - (th : ℚ) / 2))

/-- One entry of the dataset's `nations` list: a border polyline and an
optional color string (`entry.get("color", ...)`). -/
structure NationEntry where
  border : List (ℚ × ℚ)
  color : Option String
deriving DecidableEq

/-- The nations loop of `main`: entries whose `border` has fewer than 2 points
are skipped (`continue`); the rest are scaled by the hardcoded `scale = 1` and
the supersample factor, colored via `parse_rgba_force_70a` with default string
`"rgba(255,0,0,1)"`, and splined. Produces the (polyline, color) pairs handed
to `ldraw.line`. -/
def border_polylines (aa spline_samples : ℕ) (entries : List NationEntry) :
    List (List Point × RGBA) :=
  entries.filterMap fun e =>
    if e.border.length < 2 then none
    else
      let pts := e.border.map fun p => (p.1 * 1 * (aa : ℚ), p.2 * 1 * (aa : ℚ))
      let color := parse_rgba_force_70a (e.color.getD "rgba(255,0,0,1)")
      some (catmull_rom_spline pts (max 6 (spline_samples * aa)) false, color)

/-- The run configuration `main` parses; `scale` is the `--scale` option
(default 1.0). As in the source, `scale` is parsed but never applied by any
stage below. -/
structure Args where
  scale : ℚ
  fmt : String
  quality : ℕ
  tile_size : ℕ
  nation_borders : Bool
  spline_samples : ℕ
  aa_scale : ℕ

/-- Function `ensure_rgba`: mode conversion to RGBA; the pixel reinterpretation keeps
the raster's dimensions unchanged. -/
def ensure_rgba (im : Img α) : Img α := im

/-- The border-rendering block of `main`: allocate a transparent layer of size
`(W*AA, H*AA)` with `AA = max(1, aa_scale)`, stroke all border polylines onto
it, resize the layer back to `(W, H)` with the Lanczos kernel, and composite it
over the base. -/
def border_stage (stroke : (ℤ → ℤ → α) → ℤ → ℤ → α) (kernel : Img α → ℤ → ℤ → α)
    (blend : α → α → α) (transparent : α) (args : Args) (im : Img α) : Img α :=
  let aa := max 1 args.aa_scale
  let layer := Img.new α (im.width * aa) (im.height * aa) transparent
  let layer := drawOn stroke layer
  let layer := resize kernel layer im.width im.height
  compositeWith blend im layer

/-- The canvas pipeline of `main` between loading and saving: RGBA conversion,
optional border stage, icon stamping (portal stones and steddings), and text
stamping (stedding and river labels, flattened here into one list of
size-preserving draw operations). `args.scale` is parsed but, as in the
source, never used by any stage. -/
def main_canvas (stroke : (ℤ → ℤ → α) → ℤ → ℤ → α) (kernel : Img α → ℤ → ℤ → α)
    (blend : α → α → α) (transparent : α) (icons : List (Img α × (ℚ × ℚ)))
    (stamps : List ((ℤ → ℤ → α) → ℤ → ℤ → α)) (args : Args) (base : Img α) :
    Img α :=
  let im := ensure_rgba base
  let im := if args.nation_borders then
      border_stage stroke kernel blend transparent args im
    else im
  let im := icons.foldl (fun acc ic => alpha_composite_center blend acc ic.1 ic.2) im
  let im := stamps.foldl (fun acc st => drawOn st acc) im
  im

/-! ### Basic facts about the embedded constants and rounding -/

theorem ALPHA_OVERRIDE_eq : ALPHA_OVERRIDE = 191 := by
  have h : ⌊(0.75 : ℚ) * 255⌋ = 191 := by
    rw [Int.floor_eq_iff] <;> norm_num
  simp [ALPHA_OVERRIDE, h]

theorem parse_alpha_const (s : String) : (parse_rgba_force_70a s).2.2.2 = 191 := by
  unfold parse_rgba_force_70a
  rcases h : matchRgb s.data with _ | ⟨⟨r, g, b⟩⟩
  · simp [ALPHA_OVERRIDE_eq]
  · simp [ALPHA_OVERRIDE_eq]

/-- Python's round-half-even never moves a value by more than one half. -/
theorem pyRound_abs_le (q : ℚ) : |((pyRound q : ℤ) : ℚ) - q| ≤ 1 / 2 := by
  unfold pyRound
  have h0 : ((⌊q⌋ : ℤ) : ℚ) ≤ q := Int.floor_le q
  have h1 : q < ⌊q⌋ + 1 := Int.lt_floor_add_one q
  split
  · rw [abs_le]
    constructor <;> linarith
  · split
    · rw [abs_le]
      push_cast
      constructor <;> linarith
    · split
      · rw [abs_le]
        constructor <;> linarith
      · rw [abs_le]
        push_cast
        constructor <;> linarith

/-- Rounding an integer value is the identity. -/
theorem pyRound_intCast (n : ℤ) : pyRound (n : ℚ) = n := by
  unfold pyRound
  rw [Int.floor_intCast]
  simp

/-- The Catmull-Rom basis at parameter 0 returns the window's second point. -/
theorem crCoord_zero (p0 p1 p2 p3 : ℚ) : crCoord p0 p1 p2 p3 0 = p1 := by
  unfold crCoord
  ring

theorem crPoint_zero (p0 p1 p2 p3 : Point) : crPoint p0 p1 p2 p3 0 = p1 := by
  unfold crPoint
  rw [crCoord_zero, crCoord_zero]

/-- Each sliding window of four padded points contributes exactly
`samples_per_seg` sampled points. -/
theorem crSegments_length (s : ℕ) :
    ∀ l : List Point, (crSegments s l).length = (l.length - 3) * s
  | [] => by simp [crSegments]
  | [_] => by simp [crSegments]
  | [_, _] => by simp [crSegments]
  | [_, _, _] => by simp [crSegments]
  | p0 :: p1 :: p2 :: p3 :: rest => by
      have ih := crSegments_length s (p1 :: p2 :: p3 :: rest)
      rw [crSegments, List.length_append, List.length_map, List.length_range, ih]
      simp only [List.length_cons]
      have h1 : rest.length + 1 + 1 + 1 - 3 = rest.length := by omega
      have h2 : rest.length + 1 + 1 + 1 + 1 - 3 = rest.length + 1 := by omega
      rw [h1, h2, Nat.succ_mul]
      exact Nat.add_comm _ _

/-! ### C1: the forced alpha override -/

/-- C1: every parsed border color (and the fallback) carries the same fixed
override alpha — but that constant is `int(0.75 * 255) = 191`, i.e. 75 % of
255, not the 70 % the source's docstrings (and the claim) state.  The
override-ness itself holds for every input string. -/
theorem c1_alpha_override_is_75_percent :
    (∀ s : String, (parse_rgba_force_70a s).2.2.2 = 191) ∧
    parse_rgba_force_70a "rgb(12,34,56)" = (12, 34, 56, 191) ∧
    parse_rgba_force_70a "banana" = (255, 0, 0, 191) ∧
    (191 : ℚ) / 255 ≠ 70 / 100 := by
  refine ⟨parse_alpha_const, ?_, ?_, by norm_num⟩
  · have h : matchRgb "rgb(12,34,56)".data = some (12, 34, 56) := by decide
    unfold parse_rgba_force_70a
    rw [h, ALPHA_OVERRIDE_eq]
  · have h : matchRgb "banana".data = none := by decide
    unfold parse_rgba_force_70a
    rw [h, ALPHA_OVERRIDE_eq]

/-! ### C8: malformed entries are tolerated, never fatal -/

/-- C8: a color string the regex rejects degrades to the fallback red (the
parser is a total function, so no exception is possible), and a nation entry
whose border has fewer than two points contributes nothing to the drawn
polylines. -/
theorem c8_malformed_entries_tolerated :
    (∀ s : String, matchRgb s.data = none →
        parse_rgba_force_70a s = (255, 0, 0, 191)) ∧
    (∀ (aa ss : ℕ) (pre post : List NationEntry) (e : NationEntry),
        e.border.length < 2 →
        border_polylines aa ss (pre ++ e :: post) = border_polylines aa ss (pre ++ post)) := by
  constructor
  · intro s h
    unfold parse_rgba_force_70a
    rw [h, ALPHA_OVERRIDE_eq]
  · intro aa ss pre post e he
    unfold border_polylines
    rw [List.filterMap_append, List.filterMap_append, List.filterMap_cons]
    simp [he]

/-- Witness for C8 at concrete inputs: the unparsable string "banana" and a
one-point border entry. -/
theorem c8_witness :
    matchRgb "banana".data = none ∧
    parse_rgba_force_70a "banana" = (255, 0, 0, 191) ∧
    (⟨[(1, 1)], none⟩ : NationEntry).border.length < 2 ∧
    border_polylines 1 10 [⟨[(1, 1)], none⟩] = border_polylines 1 10 [] :=
  ⟨by decide, c8_malformed_entries_tolerated.1 "banana" (by decide), by decide,
   c8_malformed_entries_tolerated.2 1 10 [] [] ⟨[(1, 1)], none⟩ (by decide)⟩

/-! ### C3 and C4: spline endpoint fidelity and sample count -/

/-- C4: for a non-closed control sequence of n ≥ 2 points and s ≥ 1 samples
per segment, the spline output has exactly (n - 1) * s + 1 points. -/
theorem c4_spline_sample_count (points : List Point) (s : ℕ)
    (hn : 2 ≤ points.length) (hs : 1 ≤ s) :
    (catmull_rom_spline points s false).length = (points.length - 1) * s + 1 := by
  rcases points with _ | ⟨p0, _ | ⟨p1, rest⟩⟩
  · simp at hn
  · simp at hn
  · simp only [catmull_rom_spline, Bool.false_eq_true, if_false, List.length_append,
      crSegments_length, List.length_cons, List.length_nil, Nat.zero_add]
    have h1 : rest.length + 1 + 1 + 1 + 1 - 3 = rest.length + 1 := by
      omega
    have h2 : rest.length + 1 + 1 - 1 = rest.length + 1 := by
      omega
    rw [h1, h2]

/-- C3: for a non-closed control sequence of length ≥ 2 and s ≥ 1, the first
sampled output point is exactly the first control point and the last output
point is exactly the last control point. -/
theorem c3_spline_endpoints (points : List Point) (s : ℕ)
    (hn : 2 ≤ points.length) (hs : 1 ≤ s) :
    (catmull_rom_spline points s false).head? = points.head? ∧
    (catmull_rom_spline points s false).getLast? = points.getLast? := by
  rcases points with _ | ⟨p0, _ | ⟨p1, rest⟩⟩
  · simp at hn
  · simp at hn
  · constructor
    · simp only [catmull_rom_spline, Bool.false_eq_true, if_false]
      rcases Nat.exists_eq_add_of_le hs with ⟨k, hk⟩
      rcases hq : rest ++ [(p0 :: p1 :: rest).getLast (by simp)] with _ | ⟨q, rest2⟩
      · simp at hq
      · rw [show (p0 :: (p0 :: p1 :: rest) ++
            [(p0 :: p1 :: rest).getLast (by simp)] : List Point) =
            p0 :: p0 :: p1 :: (rest ++ [(p0 :: p1 :: rest).getLast (by simp)]) from by simp,
          hq, crSegments, hk, Nat.add_comm 1 k, List.range_succ_eq_map]
        simp only [List.map_cons, List.cons_append, List.head?_cons, Nat.cast_zero,
          zero_div, crPoint_zero, List.head?]
    · simp only [catmull_rom_spline, Bool.false_eq_true, if_false]
      rw [List.getLast?_concat, List.getLast?_eq_getLast (p0 :: p1 :: rest) (by simp)]

/-- Witness for C3: the two-point polyline [(0,0), (2,4)] with one sample per
segment starts at (0,0) and ends at (2,4). -/
theorem c3_witness :
    2 ≤ ([((0 : ℚ), (0 : ℚ)), (2, 4)] : List Point).length ∧ 1 ≤ 1 ∧
    (catmull_rom_spline [((0 : ℚ), (0 : ℚ)), (2, 4)] 1 false).head? = some ((0 : ℚ), (0 : ℚ)) ∧
    (catmull_rom_spline [((0 : ℚ), (0 : ℚ)), (2, 4)] 1 false).getLast? = some ((2 : ℚ), (4 : ℚ)) :=
  ⟨by decide, by decide,
   (c3_spline_endpoints [((0 : ℚ), (0 : ℚ)), (2, 4)] 1 (by decide) (by decide)).1,
   (c3_spline_endpoints [((0 : ℚ), (0 : ℚ)), (2, 4)] 1 (by decide) (by decide)).2⟩

/-- Witness for C4: three control points at three samples per segment yield
(3 - 1) * 3 + 1 = 7 output points. -/
theorem c4_witness :
    2 ≤ ([((0 : ℚ), (0 : ℚ)), (2, 4), (5, 1)] : List Point).length ∧ 1 ≤ 3 ∧
    (catmull_rom_spline [((0 : ℚ), (0 : ℚ)), (2, 4), (5, 1)] 3 false).length = 7 :=
  ⟨by decide, by decide,
   c4_spline_sample_count [((0 : ℚ), (0 : ℚ)), (2, 4), (5, 1)] 3 (by decide) (by decide)⟩

/-! ### C7: icon centering -/

/-- C7: an icon of size (w, h) placed at (x, y) is blended over the base in
exactly the rectangle whose top-left corner is
(round(x - w/2), round(y - h/2)): icon pixel (u, v) lands at that corner plus
(u, v), and every pixel outside the rectangle is left untouched. -/
theorem c7_icon_top_left (blend : α → α → α) (base icon : Img α) (x y : ℚ)
    (u v : ℕ) (hu : u < icon.width) (hv : v < icon.height) :
    ((alpha_composite_center blend base icon (x, y)).pix
        (pyRound (x - (icon.width : ℚ) / 2) + u) (pyRound (y - (icon.height : ℚ) / 2) + v)
      = blend (base.pix (pyRound (x - (icon.width : ℚ) / 2) + u)
                        (pyRound (y - (icon.height : ℚ) / 2) + v))
              (icon.pix u v)) ∧
    ∀ i j : ℤ,
      (i < pyRound (x - (icon.width : ℚ) / 2) ∨
       pyRound (x - (icon.width : ℚ) / 2) + icon.width ≤ i ∨
       j < pyRound (y - (icon.height : ℚ) / 2) ∨
       pyRound (y - (icon.height : ℚ) / 2) + icon.height ≤ j) →
      (alpha_composite_center blend base icon (x, y)).pix i j = base.pix i j := by
  constructor
  · unfold alpha_composite_center
    have hcond : pyRound (x - (icon.width : ℚ) / 2) ≤ pyRound (x - (icon.width : ℚ) / 2) + u ∧
        pyRound (x - (icon.width : ℚ) / 2) + u < pyRound (x - (icon.width : ℚ) / 2) + icon.width ∧
        pyRound (y - (icon.height : ℚ) / 2) ≤ pyRound (y - (icon.height : ℚ) / 2) + v ∧
        pyRound (y - (icon.height : ℚ) / 2) + v < pyRound (y - (icon.height : ℚ) / 2) + icon.height := by
      refine ⟨by omega, ?_, by omega, ?_⟩
      · have : (u : ℤ) < icon.width := by exact_mod_cast hu
        omega
      · have : (v : ℤ) < icon.height := by exact_mod_cast hv
        omega
    simp only [if_pos hcond, add_sub_cancel_left]
  · intro i j hij
    unfold alpha_composite_center
    have hcond : ¬(pyRound (x - (icon.width : ℚ) / 2) ≤ i ∧
        i < pyRound (x - (icon.width : ℚ) / 2) + icon.width ∧
        pyRound (y - (icon.height : ℚ) / 2) ≤ j ∧
        j < pyRound (y - (icon.height : ℚ) / 2) + icon.height) := by
      omega
    simp only [if_neg hcond]

/-- Witness for C7: a 2×2 icon placed at (1, 1) on a 4×4 base, checking the
blended pixel at the rounded top-left corner. -/
theorem c7_witness :
    0 < 2 ∧
    ((alpha_composite_center (fun _ s => s) (Img.new ℕ 4 4 0) (Img.new ℕ 2 2 5) (1, 1)).pix
        (pyRound ((1 : ℚ) - ((Img.new ℕ 2 2 5).width : ℚ) / 2) + 0)
        (pyRound ((1 : ℚ) - ((Img.new ℕ 2 2 5).height : ℚ) / 2) + 0) = 5) :=
  ⟨by decide,
   (c7_icon_top_left (fun _ s => s) (Img.new ℕ 4 4 0) (Img.new ℕ 2 2 5) 1 1 0 0
      (by decide) (by decide)).1⟩

/-! ### C6: river label placement -/

/-- C6: the river label's anchor is the stated coordinate shifted by +50 in x;
the drawn text box, measured by the font engine at the same stroke width 2
used for drawing, is centered on that shifted point up to the half-pixel that
integer rounding allows — and exactly when the measured width and height are
even, as in the (100,100) ↦ centered-at-(150,100) scenario. -/
theorem c6_river_label_centering :
    (∀ (bboxOf : TextBBox) (x y : ℚ) (label : String),
      |(((river_label_pos bboxOf (x, y) label).1 : ℚ)
          + (((bboxOf label 2).2.2.1 - (bboxOf label 2).1 : ℤ) : ℚ) / 2) - (x + 50)| ≤ 1 / 2 ∧
      |(((river_label_pos bboxOf (x, y) label).2 : ℚ)
          + (((bboxOf label 2).2.2.2 - (bboxOf label 2).2.1 : ℤ) : ℚ) / 2) - y| ≤ 1 / 2) ∧
    (∀ (bboxOf : TextBBox) (label : String),
      ((bboxOf label 2).2.2.1 - (bboxOf label 2).1) % 2 = 0 →
      ((bboxOf label 2).2.2.2 - (bboxOf label 2).2.1) % 2 = 0 →
      (((river_label_pos bboxOf (100, 100) label).1 : ℚ)
          + (((bboxOf label 2).2.2.1 - (bboxOf label 2).1 : ℤ) : ℚ) / 2 = 150 ∧
       ((river_label_pos bboxOf (100, 100) label).2 : ℚ)
          + (((bboxOf label 2).2.2.2 - (bboxOf label 2).2.1 : ℤ) : ℚ) / 2 = 100)) := by
  constructor
  · intro bboxOf x y label
    unfold river_label_pos
    constructor
    · have h := pyRound_abs_le (x + 50 - (((bboxOf label 2).2.2.1 - (bboxOf label 2).1 : ℤ) : ℚ) / 2)
      rw [show ∀ a b c : ℚ, a + b - c = a - (c - b) from fun a b c => by ring]
      exact h
    · have h := pyRound_abs_le (y - (((bboxOf label 2).2.2.2 - (bboxOf label 2).2.1 : ℤ) : ℚ) / 2)
      rw [show ∀ a b c : ℚ, a + b - c = a - (c - b) from fun a b c => by ring]
      exact h
  · intro bboxOf label hw hh
    obtain ⟨kw, hkw⟩ : ∃ k, (bboxOf label 2).2.2.1 - (bboxOf label 2).1 = 2 * k :=
      ⟨((bboxOf label 2).2.2.1 - (bboxOf label 2).1) / 2, by omega⟩
    obtain ⟨kh, hkh⟩ : ∃ k, (bboxOf label 2).2.2.2 - (bboxOf label 2).2.1 = 2 * k :=
      ⟨((bboxOf label 2).2.2.2 - (bboxOf label 2).2.1) / 2, by omega⟩
    simp only [river_label_pos, hkw, hkh]
    constructor
    · rw [show (100 : ℚ) + 50 - ((2 * kw : ℤ) : ℚ) / 2 = ((150 - kw : ℤ) : ℚ) from by
        push_cast
        ring, pyRound_intCast]
      push_cast
      ring
    · rw [show (100 : ℚ) - ((2 * kh : ℤ) : ℚ) / 2 = ((100 - kh : ℤ) : ℚ) from by
        push_cast
        ring, pyRound_intCast]
      push_cast
      ring

/-- Witness for C6: a measured box of width 40 and height 10 for the river
label "Brandywine" at (100, 100) centers exactly at (150, 100). -/
theorem c6_witness :
    ((40 : ℤ) % 2 = 0 ∧ (10 : ℤ) % 2 = 0) ∧
    (((river_label_pos (fun _ _ => ((0 : ℤ), (0 : ℤ), (40 : ℤ), (10 : ℤ)))
        (100, 100) "Brandywine").1 : ℚ) + ((40 : ℤ) : ℚ) / 2 = 150 ∧
     ((river_label_pos (fun _ _ => ((0 : ℤ), (0 : ℤ), (40 : ℤ), (10 : ℤ)))
        (100, 100) "Brandywine").2 : ℚ) + ((10 : ℤ) : ℚ) / 2 = 100) :=
  ⟨⟨by decide, by decide⟩, by
    have h := c6_river_label_centering.2 (fun _ _ => ((0 : ℤ), (0 : ℤ), (40 : ℤ), (10 : ℤ)))
      "Brandywine" (by decide) (by decide)
    constructor
    · have h1 := h.1
      norm_num at h1 ⊢
      convert h1 using 2
    · have h2 := h.2
      norm_num at h2 ⊢
      convert h2 using 2⟩

/-! ### C9: compositing leaves uncovered pixels unchanged -/

/-- C9: when the downsampled border layer is alpha-composited over the base
canvas with the standard "over" operator, any pixel where the layer's alpha is
zero (a well-formed transparent pixel, i.e. any point outside every stroke) is
left exactly as it was on the base. -/
theorem c9_composite_preserves_uncovered (base layer : Img Px) (i j : ℤ)
    (hwf : (layer.pix i j).Wf) (ha : (layer.pix i j).a = 0) :
    (compositeWith pxOver base layer).pix i j = base.pix i j := by
  obtain ⟨h1, h2, h3, h4, h5, h6⟩ := hwf
  have hr : (layer.pix i j).r = 0 := le_antisymm (ha ▸ h2) h1
  have hg : (layer.pix i j).g = 0 := le_antisymm (ha ▸ h4) h3
  have hb : (layer.pix i j).b = 0 := le_antisymm (ha ▸ h6) h5
  show pxOver (base.pix i j) (layer.pix i j) = base.pix i j
  unfold pxOver
  rw [hr, hg, hb, ha]
  rcases hB : base.pix i j with ⟨br, bg, bb, ba⟩
  simp only [Px.mk.injEq]
  refine ⟨by ring, by ring, by ring, by ring⟩

/-- Witness for C9: a fully transparent layer over a colored base pixel. -/
theorem c9_witness :
    (Px.Wf ⟨0, 0, 0, 0⟩ ∧ (0 : ℚ) = 0) ∧
    (compositeWith pxOver (Img.new Px 2 2 ⟨1, 1/2, 0, 1⟩) (Img.new Px 2 2 ⟨0, 0, 0, 0⟩)).pix 0 0
      = (Img.new Px 2 2 (⟨1, 1/2, 0, 1⟩ : Px)).pix 0 0 :=
  ⟨⟨⟨le_refl 0, le_refl 0, le_refl 0, le_refl 0, le_refl 0, le_refl 0⟩, rfl⟩,
   c9_composite_preserves_uncovered (Img.new Px 2 2 ⟨1, 1/2, 0, 1⟩)
     (Img.new Px 2 2 ⟨0, 0, 0, 0⟩) 0 0
     ⟨le_refl 0, le_refl 0, le_refl 0, le_refl 0, le_refl 0, le_refl 0⟩ rfl⟩

/-! ### C2: the canvas size through the pipeline (the scale option is dead) -/

theorem foldl_icons_width (blend : α → α → α) :
    ∀ (icons : List (Img α × (ℚ × ℚ))) (im : Img α),
      ((icons.foldl (fun acc ic => alpha_composite_center blend acc ic.1 ic.2) im).width
          = im.width ∧
       (icons.foldl (fun acc ic => alpha_composite_center blend acc ic.1 ic.2) im).height
          = im.height)
  | [], im => ⟨rfl, rfl⟩
  | ic :: icons, im => by
      rw [List.foldl_cons]
      have ih := foldl_icons_width blend icons (alpha_composite_center blend im ic.1 ic.2)
      exact ⟨ih.1.trans rfl, ih.2.trans rfl⟩

theorem foldl_stamps_width :
    ∀ (stamps : List ((ℤ → ℤ → α) → ℤ → ℤ → α)) (im : Img α),
      ((stamps.foldl (fun acc st => drawOn st acc) im).width = im.width ∧
       (stamps.foldl (fun acc st => drawOn st acc) im).height = im.height)
  | [], im => ⟨rfl, rfl⟩
  | st :: stamps, im => by
      rw [List.foldl_cons]
      exact foldl_stamps_width stamps (drawOn st im)

/-- C2 (code_bug evidence): every stage of the pipeline keeps the canvas at
the base image's pixel dimensions, for every value of the parsed `--scale`
option — the option is read but never applied, so for scale = 1/2 on a
200×100 base the output stays 200×100 instead of the documented 100×50. -/
theorem c2_canvas_ignores_scale :
    (∀ (α : Type) (stroke : (ℤ → ℤ → α) → ℤ → ℤ → α) (kernel : Img α → ℤ → ℤ → α)
       (blend : α → α → α) (transparent : α) (icons : List (Img α × (ℚ × ℚ)))
       (stamps : List ((ℤ → ℤ → α) → ℤ → ℤ → α)) (args : Args) (base : Img α),
       (main_canvas stroke kernel blend transparent icons stamps args base).width
           = base.width ∧
       (main_canvas stroke kernel blend transparent icons stamps args base).height
           = base.height) ∧
    ((main_canvas (α := ℕ) id (fun _ _ _ => 0) (fun a _ => a) 0 [] []
        ⟨1/2, "jpg", 90, 0, true, 10, 1⟩ (Img.new ℕ 200 100 0)).width = 200 ∧
     (main_canvas (α := ℕ) id (fun _ _ _ => 0) (fun a _ => a) 0 [] []
        ⟨1/2, "jpg", 90, 0, true, 10, 1⟩ (Img.new ℕ 200 100 0)).height = 100 ∧
     ((200 : ℚ) ≠ 200 * (1/2) ∧ (100 : ℚ) ≠ 100 * (1/2))) := by
  have key : ∀ (α : Type) (stroke : (ℤ → ℤ → α) → ℤ → ℤ → α) (kernel : Img α → ℤ → ℤ → α)
      (blend : α → α → α) (transparent : α) (icons : List (Img α × (ℚ × ℚ)))
      (stamps : List ((ℤ → ℤ → α) → ℤ → ℤ → α)) (args : Args) (base : Img α),
      (main_canvas stroke kernel blend transparent icons stamps args base).width
          = base.width ∧
      (main_canvas stroke kernel blend transparent icons stamps args base).height
          = base.height := by
    intro α stroke kernel blend transparent icons stamps args base
    unfold main_canvas
    have hb : ∀ im : Img α,
        ((if args.nation_borders then
            border_stage stroke kernel blend transparent args im
          else im).width = im.width ∧
         (if args.nation_borders then
            border_stage stroke kernel blend transparent args im
          else im).height = im.height) := by
      intro im
      split
      · exact ⟨rfl, rfl⟩
      · exact ⟨rfl, rfl⟩
    have h1 := hb (ensure_rgba base)
    have h2 := foldl_icons_width blend icons
      (if args.nation_borders then
          border_stage stroke kernel blend transparent args (ensure_rgba base)
        else ensure_rgba base)
    have h3 := foldl_stamps_width stamps
      (icons.foldl (fun acc ic => alpha_composite_center blend acc ic.1 ic.2)
        (if args.nation_borders then
            border_stage stroke kernel blend transparent args (ensure_rgba base)
          else ensure_rgba base))
    exact ⟨h3.1.trans (h2.1.trans h1.1), h3.2.trans (h2.2.trans h1.2)⟩
  refine ⟨key, ?_, ?_, by norm_num, by norm_num⟩
  · exact (key ℕ id (fun _ _ _ => 0) (fun a _ => a) 0 [] []
      ⟨1/2, "jpg", 90, 0, true, 10, 1⟩ (Img.new ℕ 200 100 0)).1
  · exact (key ℕ id (fun _ _ _ => 0) (fun a _ => a) 0 [] []
      ⟨1/2, "jpg", 90, 0, true, 10, 1⟩ (Img.new ℕ 200 100 0)).2

/-! ### C5: tile export is a lossless partition of the canvas -/

theorem ceil_div_mul_ge (W T : ℕ) (hT : 1 ≤ T) : W ≤ ((W + T - 1) / T) * T := by
  have hdm := Nat.div_add_mod (W + T - 1) T
  have hr : (W + T - 1) % T < T := Nat.mod_lt _ (by omega)
  rw [Nat.mul_comm]
  generalize hq : T * ((W + T - 1) / T) = a at hdm ⊢
  generalize hm : (W + T - 1) % T = r at hdm hr
  omega

theorem mul_lt_of_lt_ceil_div (W T i : ℕ) (hT : 1 ≤ T)
    (hi : i < (W + T - 1) / T) : i * T < W := by
  have h1 : (i + 1) * T ≤ ((W + T - 1) / T) * T := Nat.mul_le_mul_right T hi
  have hdm := Nat.div_add_mod (W + T - 1) T
  have hr : (W + T - 1) % T < T := Nat.mod_lt _ (by omega)
  rw [Nat.succ_mul] at h1
  rw [Nat.mul_comm] at hdm
  generalize hq : ((W + T - 1) / T) * T = a at hdm h1
  generalize hm : (W + T - 1) % T = r at hdm hr
  generalize hp : i * T = b at h1 ⊢
  omega

theorem div_lt_ceil_div (W T x : ℕ) (hT : 1 ≤ T) (hx : x < W) :
    x / T < (W + T - 1) / T := by
  by_contra h
  push_neg at h
  have h1 : ((W + T - 1) / T) * T ≤ (x / T) * T := Nat.mul_le_mul_right T h
  have h2 := ceil_div_mul_ge W T hT
  have h3 : (x / T) * T ≤ x := Nat.div_mul_le_self x T
  generalize ha : ((W + T - 1) / T) * T = a at h1 h2
  generalize hb : (x / T) * T = b at h1 h3
  omega

/-- The widths (or heights) of one row of tiles sum to the full extent,
provided every tile in range starts strictly inside the canvas. -/
theorem sum_tile_sides (T W : ℕ) :
    ∀ n, (∀ i, i < n → i * T < W) →
      ((List.range n).map fun i => min (i * T + T) W - i * T).sum = min (n * T) W
  | 0, _ => by simp
  | n + 1, h => by
      rw [List.range_succ, List.map_append, List.sum_append,
        sum_tile_sides T W n (fun i hi => h i (Nat.lt_succ_of_lt hi))]
      simp only [List.map_cons, List.map_nil, List.sum_cons, List.sum_nil]
      have h1 : n * T < W := h n (Nat.lt_succ_self n)
      have h2 : min (n * T) W = n * T := Nat.min_eq_left h1.le
      have h3 : n * T ≤ min (n * T + T) W := le_min (Nat.le_add_right _ _) h1.le
      rw [h2, Nat.succ_mul]
      generalize hg : n * T = a at h3 ⊢
      generalize hm : min (a + T) W = m at h3 ⊢
      omega

theorem sum_flatMap_nat (f : ℕ → List ℕ) :
    ∀ l : List ℕ, (l.flatMap f).sum = (l.map fun a => (f a).sum).sum
  | [] => rfl
  | a :: l => by
      rw [List.flatMap_cons, List.sum_append, List.map_cons, List.sum_cons,
        sum_flatMap_nat f l]

/-- Membership in the exported tile list is exactly having in-range grid
coordinates. -/
theorem mem_export_tiles (im : Img α) (T : ℕ) (bn fmt : String) (t : Tile α) :
    t ∈ export_tiles im T bn fmt ↔
      ∃ ix iy, ix < (im.width + T - 1) / T ∧ iy < (im.height + T - 1) / T ∧
        t = tileAt im T bn fmt ix iy := by
  unfold export_tiles
  simp only [List.mem_flatMap, List.mem_map, List.mem_range]
  constructor
  · rintro ⟨iy, hiy, ix, hix, rfl⟩
    exact ⟨ix, iy, hix, hiy, rfl⟩
  · rintro ⟨ix, iy, hix, hiy, rfl⟩
    exact ⟨iy, hiy, ix, hix, rfl⟩

/-- C5: exporting tiles of size T ≥ 1 from a W×H canvas yields exactly
ceil(W/T) * ceil(H/T) crops named by their zero-padded grid indices; every
canvas pixel lies in exactly one tile (no gap, no overlap), the tiles' total
pixel count is W*H, and each tile pixel equals the corresponding canvas pixel,
so reassembling the crops reconstructs the canvas unchanged. -/
theorem c5_tiles_partition (im : Img α) (T : ℕ) (bn fmt : String) (hT : 1 ≤ T) :
    ((export_tiles im T bn fmt).length
        = ((im.width + T - 1) / T) * ((im.height + T - 1) / T)) ∧
    (∀ t ∈ export_tiles im T bn fmt,
      ∃ ix iy, ix < (im.width + T - 1) / T ∧ iy < (im.height + T - 1) / T ∧
        t.name = bn ++ "_x" ++ zeroPad2 ix ++ "_y" ++ zeroPad2 iy ++ "." ++ fmt.toLower ∧
        t.left = ix * T ∧ t.upper = iy * T ∧
        t.right = min (ix * T + T) im.width ∧ t.lower = min (iy * T + T) im.height ∧
        t.img.width = t.right - t.left ∧ t.img.height = t.lower - t.upper) ∧
    (((export_tiles im T bn fmt).map fun t => (t.right - t.left) * (t.lower - t.upper)).sum
        = im.width * im.height) ∧
    (∀ x y : ℕ, x < im.width → y < im.height →
      ∃! t : Tile α, t ∈ export_tiles im T bn fmt ∧
        t.left ≤ x ∧ x < t.right ∧ t.upper ≤ y ∧ y < t.lower) ∧
    (∀ t ∈ export_tiles im T bn fmt, ∀ u v : ℕ,
      t.img.pix u v = im.pix (t.left + u) (t.upper + v)) := by
  refine ⟨?_, ?_, ?_, ?_, ?_⟩
  · unfold export_tiles
    rw [List.length_flatMap]
    have h : ∀ iy : ℕ, (List.length ∘ fun iy : ℕ =>
        (List.range ((im.width + T - 1) / T)).map fun ix => tileAt im T bn fmt ix iy) iy
          = (im.width + T - 1) / T := by
      intro iy
      simp
    rw [List.map_congr_left fun a _ => h a, List.map_const', List.sum_replicate,
      List.length_range, smul_eq_mul, Nat.mul_comm]
  · intro t ht
    rcases (mem_export_tiles im T bn fmt t).1 ht with ⟨ix, iy, hix, hiy, rfl⟩
    exact ⟨ix, iy, hix, hiy, rfl, rfl, rfl, rfl, rfl, rfl, rfl⟩
  · unfold export_tiles
    rw [List.map_flatMap, sum_flatMap_nat]
    have hrow : ∀ iy ∈ List.range ((im.height + T - 1) / T),
        (((List.range ((im.width + T - 1) / T)).map fun ix =>
            tileAt im T bn fmt ix iy).map fun t =>
              (t.right - t.left) * (t.lower - t.upper)).sum
          = im.width * (min (iy * T + T) im.height - iy * T) := by
      intro iy _
      rw [List.map_map]
      have hbody : ((fun t : Tile α => (t.right - t.left) * (t.lower - t.upper)) ∘
          fun ix => tileAt im T bn fmt ix iy)
            = fun ix => (min (ix * T + T) im.width - ix * T)
              * (min (iy * T + T) im.height - iy * T) := by
        funext ix
        rfl
      rw [hbody, List.sum_map_mul_right,
        sum_tile_sides T im.width _ (fun i hi => mul_lt_of_lt_ceil_div im.width T i hT hi)]
      have hmin : min (((im.width + T - 1) / T) * T) im.width = im.width :=
        Nat.min_eq_right (ceil_div_mul_ge im.width T hT)
      rw [hmin]
    rw [List.map_congr_left hrow, List.sum_map_mul_left,
      sum_tile_sides T im.height _ (fun i hi => mul_lt_of_lt_ceil_div im.height T i hT hi)]
    have hmin : min (((im.height + T - 1) / T) * T) im.height = im.height :=
      Nat.min_eq_right (ceil_div_mul_ge im.height T hT)
    rw [hmin]
  · intro x y hx hy
    have hdx := Nat.div_add_mod x T
    have hmx : x % T < T := Nat.mod_lt _ (by omega)
    have hdy := Nat.div_add_mod y T
    have hmy : y % T < T := Nat.mod_lt _ (by omega)
    refine ⟨tileAt im T bn fmt (x / T) (y / T), ⟨?_, ?_, ?_, ?_, ?_⟩, ?_⟩
    · exact (mem_export_tiles im T bn fmt _).2
        ⟨x / T, y / T, div_lt_ceil_div im.width T x hT hx,
         div_lt_ceil_div im.height T y hT hy, rfl⟩
    · exact Nat.div_mul_le_self x T
    · refine lt_min ?_ hx
      rw [Nat.mul_comm] at hdx
      omega
    · exact Nat.div_mul_le_self y T
    · refine lt_min ?_ hy
      rw [Nat.mul_comm] at hdy
      omega
    · rintro t ⟨ht, hl, hr, hu, hlo⟩
      rcases (mem_export_tiles im T bn fmt t).1 ht with ⟨ix, iy, hix, hiy, rfl⟩
      have hxr : x < ix * T + T := lt_of_lt_of_le hr (min_le_left _ _)
      have hyr : y < iy * T + T := lt_of_lt_of_le hlo (min_le_left _ _)
      have hex : x / T = ix := Nat.div_eq_of_lt_le hl (by rw [Nat.succ_mul]; exact hxr)
      have hey : y / T = iy := Nat.div_eq_of_lt_le hu (by rw [Nat.succ_mul]; exact hyr)
      rw [hex, hey]
  · intro t ht u v
    rcases (mem_export_tiles im T bn fmt t).1 ht with ⟨ix, iy, _, _, rfl⟩
    rfl

/-- Witness for C5: a 3×2 canvas at tile size 2 yields 2×1 tiles covering all
6 pixels. -/
theorem c5_witness :
    1 ≤ 2 ∧
    (export_tiles (Img.new ℕ 3 2 7) 2 "t" "jpg").length = 2 ∧
    ((export_tiles (Img.new ℕ 3 2 7) 2 "t" "jpg").map fun t =>
        (t.right - t.left) * (t.lower - t.upper)).sum = 6 :=
  ⟨by decide, (c5_tiles_partition (Img.new ℕ 3 2 7) 2 "t" "jpg" (by decide)).1,
   (c5_tiles_partition (Img.new ℕ 3 2 7) 2 "t" "jpg" (by decide)).2.2.1⟩

/-! ### C10: the language the color regex accepts -/

/-- One `\s*(\d+)` capture of the claim's pattern: a run of whitespace
followed by a nonempty run of digits. -/
def SpecSeg (w d : List Char) : Prop :=
  (∀ c ∈ w, isPySpace c = true) ∧ d ≠ [] ∧ ∀ c ∈ d, isPyDigit c = true

/-- The claim's pattern, spelled from the spec's words: `rgb(` case-insensitive,
optional whitespace after the opening parenthesis and around the commas, three
digit-run captures, and no whitespace before the closing parenthesis, which
ends the string.  Digits and whitespace are the regex's own Unicode classes
(`isPyDigit`, `isPySpace`), digit runs are valued as `int()` values them. -/
def SpecPatCore (l : List Char) (r g b : ℕ) : Prop :=
  ∃ c1 c2 c3 w1 d1 w2 w3 d2 w4 w5 d3,
    c1.toLower = 'r' ∧ c2.toLower = 'g' ∧ c3.toLower = 'b' ∧
    SpecSeg w1 d1 ∧ (∀ c ∈ w2, isPySpace c = true) ∧
    SpecSeg w3 d2 ∧ (∀ c ∈ w4, isPySpace c = true) ∧
    SpecSeg w5 d3 ∧
    r = digitsVal d1 ∧ g = digitsVal d2 ∧ b = digitsVal d3 ∧
    l = c1 :: c2 :: c3 :: '(' ::
        (w1 ++ d1 ++ w2 ++ [','] ++ w3 ++ d2 ++ w4 ++ [','] ++ w5 ++ d3 ++ [')'])

/-- No character is both a Unicode decimal digit and Python whitespace: the
`Nd` blocks and the whitespace set are disjoint code-point ranges. -/
theorem not_digit_and_space (c : Char) : ¬(isPyDigit c = true ∧ isPySpace c = true) := by
  rintro ⟨hd, hs⟩
  rw [isPyDigit, List.any_eq_true] at hd
  obtain ⟨b, hb, hcond⟩ := hd
  simp only [Bool.and_eq_true, decide_eq_true_eq] at hcond
  simp only [digitBases, List.mem_cons, List.not_mem_nil, or_false] at hb
  simp only [isPySpace, Bool.or_eq_true, Bool.and_eq_true, decide_eq_true_eq] at hs
  omega

theorem digit_not_space {c : Char} (h : isPyDigit c = true) : isPySpace c = false := by
  cases hs : isPySpace c
  · rfl
  · exact absurd ⟨h, hs⟩ (not_digit_and_space c)

theorem space_not_digit {c : Char} (h : isPySpace c = true) : isPyDigit c = false := by
  cases hd : isPyDigit c
  · rfl
  · exact absurd ⟨hd, h⟩ (not_digit_and_space c)

theorem dropWhile_append_all {p : Char → Bool} :
    ∀ {l : List Char} (r : List Char), (∀ c ∈ l, p c = true) →
      (l ++ r).dropWhile p = r.dropWhile p
  | [], _, _ => rfl
  | a :: l, r, h => by
      rw [List.cons_append, List.dropWhile_cons, if_pos (h a (by simp))]
      exact dropWhile_append_all r fun c hc => h c (by simp [hc])

theorem takeWhile_append_all {p : Char → Bool} :
    ∀ {l : List Char} (r : List Char), (∀ c ∈ l, p c = true) →
      (l ++ r).takeWhile p = l ++ r.takeWhile p
  | [], _, _ => rfl
  | a :: l, r, h => by
      rw [List.cons_append, List.takeWhile_cons, if_pos (h a (by simp)),
        takeWhile_append_all r fun c hc => h c (by simp [hc])]
      simp

/-- Scanning `w ++ d ++ w' ++ c :: rest` (spaces, digits, spaces, then a
non-space non-digit character) behaves as the three scanner steps of one
`\s*(\d+)\s*` unit of the regex. -/
theorem scan_segment (w d w' rest : List Char) (c : Char)
    (hw : ∀ x ∈ w, isPySpace x = true) (hd : d ≠ [])
    (hdd : ∀ x ∈ d, isPyDigit x = true) (hw' : ∀ x ∈ w', isPySpace x = true)
    (hc1 : isPySpace c = false) (hc2 : isPyDigit c = false) :
    ((w ++ (d ++ (w' ++ c :: rest))).dropWhile isPySpace).takeWhile isPyDigit = d ∧
    ((w ++ (d ++ (w' ++ c :: rest))).dropWhile isPySpace).dropWhile isPyDigit
        = w' ++ c :: rest ∧
    (w' ++ c :: rest).dropWhile isPySpace = c :: rest := by
  have hstop : (w' ++ c :: rest).takeWhile isPyDigit = [] := by
    rcases w' with _ | ⟨wc, wtl⟩
    · rw [List.nil_append, List.takeWhile_cons, if_neg (by simp [hc2])]
    · rw [List.cons_append, List.takeWhile_cons,
        if_neg (by simp [space_not_digit (hw' wc (by simp))])]
  have hstay : (w' ++ c :: rest).dropWhile isPyDigit = w' ++ c :: rest := by
    rcases w' with _ | ⟨wc, wtl⟩
    · rw [List.nil_append, List.dropWhile_cons, if_neg (by simp [hc2])]
    · rw [List.cons_append, List.dropWhile_cons,
        if_neg (by simp [space_not_digit (hw' wc (by simp))])]
  have hds : (w ++ (d ++ (w' ++ c :: rest))).dropWhile isPySpace
      = d ++ (w' ++ c :: rest) := by
    rw [dropWhile_append_all _ hw]
    rcases d with _ | ⟨dc, dtl⟩
    · exact absurd rfl hd
    · rw [List.cons_append, List.dropWhile_cons,
        if_neg (by simp [digit_not_space (hdd dc (by simp))])]
  refine ⟨?_, ?_, ?_⟩
  · rw [hds, takeWhile_append_all _ hdd, hstop, List.append_nil]
  · rw [hds, dropWhile_append_all _ hdd, hstay]
  · rw [dropWhile_append_all _ hw', List.dropWhile_cons, if_neg (by simp [hc1])]

/-- The scanner accepts every word of the claimed pattern (optionally followed
by one trailing newline, as Python's end anchor allows) and captures its three
integers. -/
theorem matchRgb_of_spec (c1 c2 c3 : Char) (w1 d1 w2 w3 d2 w4 w5 d3 tail : List Char)
    (h1 : c1.toLower = 'r') (h2 : c2.toLower = 'g') (h3 : c3.toLower = 'b')
    (hw1 : ∀ c ∈ w1, isPySpace c = true) (hd1 : d1 ≠ [])
    (hdd1 : ∀ c ∈ d1, isPyDigit c = true)
    (hw2 : ∀ c ∈ w2, isPySpace c = true)
    (hw3 : ∀ c ∈ w3, isPySpace c = true) (hd2 : d2 ≠ [])
    (hdd2 : ∀ c ∈ d2, isPyDigit c = true)
    (hw4 : ∀ c ∈ w4, isPySpace c = true)
    (hw5 : ∀ c ∈ w5, isPySpace c = true) (hd3 : d3 ≠ [])
    (hdd3 : ∀ c ∈ d3, isPyDigit c = true)
    (htail : tail = [] ∨ tail = ['\n']) :
    matchRgb (c1 :: c2 :: c3 :: '(' ::
        (w1 ++ (d1 ++ (w2 ++ ',' ::
          (w3 ++ (d2 ++ (w4 ++ ',' ::
            (w5 ++ (d3 ++ ')' :: tail)))))))))
      = some (digitsVal d1, digitsVal d2, digitsVal d3) := by
  obtain ⟨s1a, s1b, s1c⟩ :=
    scan_segment w1 d1 w2 (w3 ++ (d2 ++ (w4 ++ ',' :: (w5 ++ (d3 ++ ')' :: tail))))) ','
      hw1 hd1 hdd1 hw2 (by decide) (by decide)
  obtain ⟨s2a, s2b, s2c⟩ :=
    scan_segment w3 d2 w4 (w5 ++ (d3 ++ ')' :: tail)) ','
      hw3 hd2 hdd2 hw4 (by decide) (by decide)
  have h5 := scan_segment w5 d3 [] tail ')' hw5 hd3 hdd3 (by simp) (by decide) (by decide)
  simp only [List.nil_append] at h5
  obtain ⟨s3a, s3b, _⟩ := h5
  rcases d1 with _ | ⟨e1, t1⟩
  · exact absurd rfl hd1
  rcases d2 with _ | ⟨e2, t2⟩
  · exact absurd rfl hd2
  rcases d3 with _ | ⟨e3, t3⟩
  · exact absurd rfl hd3
  rcases htail with rfl | rfl
  · simp only [List.cons_append] at s1a s1b s1c s2a s2b s2c s3a s3b ⊢
    simp [matchRgb, h1, h2, h3, s1a, s1b, s1c, s2a, s2b, s2c, s3a, s3b]
  · simp only [List.cons_append] at s1a s1b s1c s2a s2b s2c s3a s3b ⊢
    simp [matchRgb, h1, h2, h3, s1a, s1b, s1c, s2a, s2b, s2c, s3a, s3b]

/-- Every input the scanner accepts decomposes as the claimed pattern followed
by an optional single trailing newline, and the captures are the decimal
values of the three digit runs. -/
theorem spec_of_matchRgb (l : List Char) (r g b : ℕ) (h : matchRgb l = some (r, g, b)) :
    ∃ c1 c2 c3 w1 d1 w2 w3 d2 w4 w5 d3 tail,
      c1.toLower = 'r' ∧ c2.toLower = 'g' ∧ c3.toLower = 'b' ∧
      SpecSeg w1 d1 ∧ (∀ c ∈ w2, isPySpace c = true) ∧
      SpecSeg w3 d2 ∧ (∀ c ∈ w4, isPySpace c = true) ∧
      SpecSeg w5 d3 ∧
      r = digitsVal d1 ∧ g = digitsVal d2 ∧ b = digitsVal d3 ∧
      (tail = [] ∨ tail = ['\n']) ∧
      l = c1 :: c2 :: c3 :: '(' ::
          (w1 ++ d1 ++ w2 ++ [','] ++ w3 ++ d2 ++ w4 ++ [','] ++ w5 ++ d3
            ++ [')'] ++ tail) := by
  rcases l with _ | ⟨c1, l⟩
  · exact absurd h (by simp [matchRgb])
  rcases l with _ | ⟨c2, l⟩
  · exact absurd h (by simp [matchRgb])
  rcases l with _ | ⟨c3, l⟩
  · exact absurd h (by simp [matchRgb])
  rcases l with _ | ⟨c4, rest⟩
  · exact absurd h (by simp [matchRgb])
  simp only [matchRgb] at h
  split at h
  case isFalse => exact absurd h (by simp)
  case isTrue hcond =>
  obtain ⟨h1, h2, h3, rfl⟩ := hcond
  split at h
  all_goals try exact Option.noConfusion h
  rename_i e1 t1 r3 heq1 heq2
  split at h
  all_goals try exact Option.noConfusion h
  rename_i e2 t2 r6 heq3 heq4
  split at h
  all_goals try exact Option.noConfusion h
  rename_i e3 t3 r9 heq5 heq6
  split at h
  case isFalse => exact Option.noConfusion h
  case isTrue htail =>
  rw [heq1, heq3, heq5] at h
  have hvals : digitsVal (e1 :: t1) = r ∧ digitsVal (e2 :: t2) = g ∧
      digitsVal (e3 :: t3) = b := by
    simpa using h
  obtain ⟨hr, hg, hb⟩ := hvals
  refine ⟨c1, c2, c3, rest.takeWhile isPySpace, e1 :: t1,
    ((rest.dropWhile isPySpace).dropWhile isPyDigit).takeWhile isPySpace,
    r3.takeWhile isPySpace, e2 :: t2,
    ((r3.dropWhile isPySpace).dropWhile isPyDigit).takeWhile isPySpace,
    r6.takeWhile isPySpace, e3 :: t3, r9,
    h1, h2, h3,
    ⟨fun c hc => List.mem_takeWhile_imp hc, by simp, fun c hc => by
      rw [← heq1] at hc
      exact List.mem_takeWhile_imp hc⟩,
    fun c hc => List.mem_takeWhile_imp hc,
    ⟨fun c hc => List.mem_takeWhile_imp hc, by simp, fun c hc => by
      rw [← heq3] at hc
      exact List.mem_takeWhile_imp hc⟩,
    fun c hc => List.mem_takeWhile_imp hc,
    ⟨fun c hc => List.mem_takeWhile_imp hc, by simp, fun c hc => by
      rw [← heq5] at hc
      exact List.mem_takeWhile_imp hc⟩,
    hr.symm, hg.symm, hb.symm, htail, ?_⟩
  have hrest : rest = rest.takeWhile isPySpace ++ rest.dropWhile isPySpace :=
    (List.takeWhile_append_dropWhile _ _).symm
  have hR1 : rest.dropWhile isPySpace
      = (e1 :: t1) ++ (rest.dropWhile isPySpace).dropWhile isPyDigit := by
    conv_lhs => rw [← List.takeWhile_append_dropWhile isPyDigit (rest.dropWhile isPySpace)]
    rw [heq1]
  have hR1d : (rest.dropWhile isPySpace).dropWhile isPyDigit
      = ((rest.dropWhile isPySpace).dropWhile isPyDigit).takeWhile isPySpace
          ++ (',' :: r3) := by
    conv_lhs => rw [← List.takeWhile_append_dropWhile isPySpace
      ((rest.dropWhile isPySpace).dropWhile isPyDigit)]
    rw [heq2]
  have hr3 : r3 = r3.takeWhile isPySpace ++ r3.dropWhile isPySpace :=
    (List.takeWhile_append_dropWhile _ _).symm
  have hR2 : r3.dropWhile isPySpace
      = (e2 :: t2) ++ (r3.dropWhile isPySpace).dropWhile isPyDigit := by
    conv_lhs => rw [← List.takeWhile_append_dropWhile isPyDigit (r3.dropWhile isPySpace)]
    rw [heq3]
  have hR2d : (r3.dropWhile isPySpace).dropWhile isPyDigit
      = ((r3.dropWhile isPySpace).dropWhile isPyDigit).takeWhile isPySpace
          ++ (',' :: r6) := by
    conv_lhs => rw [← List.takeWhile_append_dropWhile isPySpace
      ((r3.dropWhile isPySpace).dropWhile isPyDigit)]
    rw [heq4]
  have hr6 : r6 = r6.takeWhile isPySpace ++ r6.dropWhile isPySpace :=
    (List.takeWhile_append_dropWhile _ _).symm
  have hR3 : r6.dropWhile isPySpace = (e3 :: t3) ++ (')' :: r9) := by
    conv_lhs => rw [← List.takeWhile_append_dropWhile isPyDigit (r6.dropWhile isPySpace)]
    rw [heq5, heq6]
  conv_lhs => rw [hrest, hR1, hR1d, hr3, hR2, hR2d, hr6, hR3]
  simp

theorem SpecPatCore_fourth (l : List Char) (r g b : ℕ) (h : SpecPatCore l r g b) :
    l[3]? = some '(' := by
  obtain ⟨c1, c2, c3, w1, d1, w2, w3, d2, w4, w5, d3, _, _, _, _, _, _, _, _, _, _, _,
    hl⟩ := h
  subst hl
  simp

theorem SpecPatCore_last (l : List Char) (r g b : ℕ) (h : SpecPatCore l r g b) :
    l.getLast? = some ')' := by
  obtain ⟨c1, c2, c3, w1, d1, w2, w3, d2, w4, w5, d3, _, _, _, _, _, _, _, _, _, _, _,
    hl⟩ := h
  subst hl
  rw [show (c1 :: c2 :: c3 :: '(' ::
      (w1 ++ d1 ++ w2 ++ [','] ++ w3 ++ d2 ++ w4 ++ [','] ++ w5 ++ d3 ++ [')'])
        : List Char)
      = (c1 :: c2 :: c3 :: '(' ::
          (w1 ++ d1 ++ w2 ++ [','] ++ w3 ++ d2 ++ w4 ++ [','] ++ w5 ++ d3)) ++ [')']
    from by simp, List.getLast?_concat]

/-- Concrete non-ASCII acceptances, matching the Python program: the regex's
str-pattern classes are Unicode-wide, so Arabic-Indic digits parse (with
`int()`'s digit values) and a no-break space counts as whitespace. -/
theorem unicode_inputs_accepted :
    parse_rgba_force_70a "rgb(١,٢,٣)" = (1, 2, 3, 191) ∧
    parse_rgba_force_70a "rgb(\xa01,2,3)" = (1, 2, 3, 191) := by
  constructor
  · have hm : matchRgb "rgb(١,٢,٣)".data = some (1, 2, 3) := by decide
    unfold parse_rgba_force_70a
    rw [hm, ALPHA_OVERRIDE_eq]
  · have hm : matchRgb "rgb(\xa01,2,3)".data = some (1, 2, 3) := by decide
    unfold parse_rgba_force_70a
    rw [hm, ALPHA_OVERRIDE_eq]

/-- C10 (amended): the color parser accepts exactly the strings matching the
claimed pattern rgb(int,int,int) — case-insensitive, with the digit runs being
Unicode decimal digits valued as `int()` does, optional Unicode whitespace
after the opening parenthesis and around the commas, none before the closing
parenthesis — optionally followed by one trailing newline (Python's `$`
matches just before a final newline); every other string, in particular the
pipeline's own default "rgba(255,0,0,1)", falls back to red with the override
alpha. -/
theorem c10_parser_language :
    (∀ (s : String) (r g b : ℕ),
      matchRgb s.data = some (r, g, b) ↔
        SpecPatCore s.data r g b ∨
          ∃ l, s.data = l ++ ['\n'] ∧ SpecPatCore l r g b) ∧
    (∀ s : String,
      (∀ r g b : ℕ, ¬ (SpecPatCore s.data r g b ∨
          ∃ l, s.data = l ++ ['\n'] ∧ SpecPatCore l r g b)) →
      parse_rgba_force_70a s = (255, 0, 0, 191)) ∧
    parse_rgba_force_70a "rgba(255,0,0,1)" = (255, 0, 0, 191) := by
  have hiff : ∀ (l : List Char) (r g b : ℕ),
      matchRgb l = some (r, g, b) ↔
        SpecPatCore l r g b ∨ ∃ l', l = l' ++ ['\n'] ∧ SpecPatCore l' r g b := by
    intro l r g b
    constructor
    · intro h
      obtain ⟨c1, c2, c3, w1, d1, w2, w3, d2, w4, w5, d3, tail, h1, h2, h3, hs1, hw2,
        hs2, hw4, hs3, hr, hg, hb, htail, hl⟩ := spec_of_matchRgb l r g b h
      rcases htail with rfl | rfl
      · left
        exact ⟨c1, c2, c3, w1, d1, w2, w3, d2, w4, w5, d3, h1, h2, h3, hs1, hw2, hs2,
          hw4, hs3, hr, hg, hb, by simpa using hl⟩
      · right
        refine ⟨c1 :: c2 :: c3 :: '(' ::
            (w1 ++ d1 ++ w2 ++ [','] ++ w3 ++ d2 ++ w4 ++ [','] ++ w5 ++ d3 ++ [')']),
          ?_,
          c1, c2, c3, w1, d1, w2, w3, d2, w4, w5, d3, h1, h2, h3, hs1, hw2, hs2,
          hw4, hs3, hr, hg, hb, rfl⟩
        rw [hl]
        simp
    · intro h
      rcases h with hcore | ⟨l', rfl, hcore⟩
      · obtain ⟨c1, c2, c3, w1, d1, w2, w3, d2, w4, w5, d3, h1, h2, h3,
          ⟨hw1s, hd1, hd1d⟩, hw2s, ⟨hw3s, hd2, hd2d⟩, hw4s, ⟨hw5s, hd3, hd3d⟩,
          hr, hg, hb, hl⟩ := hcore
        subst hr hg hb hl
        rw [show (c1 :: c2 :: c3 :: '(' ::
            (w1 ++ d1 ++ w2 ++ [','] ++ w3 ++ d2 ++ w4 ++ [','] ++ w5 ++ d3 ++ [')'])
              : List Char)
            = c1 :: c2 :: c3 :: '(' ::
              (w1 ++ (d1 ++ (w2 ++ ',' ::
                (w3 ++ (d2 ++ (w4 ++ ',' ::
                  (w5 ++ (d3 ++ ')' :: ([] : List Char)))))))))
          from by simp]
        exact matchRgb_of_spec c1 c2 c3 w1 d1 w2 w3 d2 w4 w5 d3 []
          h1 h2 h3 hw1s hd1 hd1d hw2s hw3s hd2 hd2d hw4s hw5s hd3 hd3d (Or.inl rfl)
      · obtain ⟨c1, c2, c3, w1, d1, w2, w3, d2, w4, w5, d3, h1, h2, h3,
          ⟨hw1s, hd1, hd1d⟩, hw2s, ⟨hw3s, hd2, hd2d⟩, hw4s, ⟨hw5s, hd3, hd3d⟩,
          hr, hg, hb, hl⟩ := hcore
        subst hr hg hb hl
        rw [show ((c1 :: c2 :: c3 :: '(' ::
            (w1 ++ d1 ++ w2 ++ [','] ++ w3 ++ d2 ++ w4 ++ [','] ++ w5 ++ d3 ++ [')'])
              : List Char) ++ ['\n'])
            = c1 :: c2 :: c3 :: '(' ::
              (w1 ++ (d1 ++ (w2 ++ ',' ::
                (w3 ++ (d2 ++ (w4 ++ ',' ::
                  (w5 ++ (d3 ++ ')' :: (['\n'] : List Char)))))))))
          from by simp]
        exact matchRgb_of_spec c1 c2 c3 w1 d1 w2 w3 d2 w4 w5 d3 ['\n']
          h1 h2 h3 hw1s hd1 hd1d hw2s hw3s hd2 hd2d hw4s hw5s hd3 hd3d (Or.inr rfl)
  refine ⟨fun s r g b => hiff s.data r g b, ?_, ?_⟩
  · intro s hno
    rcases hm : matchRgb s.data with _ | ⟨⟨r, g, b⟩⟩
    · unfold parse_rgba_force_70a
      rw [hm, ALPHA_OVERRIDE_eq]
    · exact absurd ((hiff s.data r g b).1 hm) (hno r g b)
  · have hm : matchRgb "rgba(255,0,0,1)".data = none := by decide
    unfold parse_rgba_force_70a
    rw [hm, ALPHA_OVERRIDE_eq]

/-- Witness for C10 (amended): the pipeline's default color string matches
neither the pattern nor its newline-extended variant, so it parses to the
fallback. -/
theorem c10_witness :
    (∀ r g b : ℕ, ¬ (SpecPatCore ("rgba(255,0,0,1)".data) r g b ∨
        ∃ l, "rgba(255,0,0,1)".data = l ++ ['\n'] ∧ SpecPatCore l r g b)) ∧
    parse_rgba_force_70a "rgba(255,0,0,1)" = (255, 0, 0, 191) := by
  have hno : ∀ r g b : ℕ, ¬ (SpecPatCore ("rgba(255,0,0,1)".data) r g b ∨
      ∃ l, "rgba(255,0,0,1)".data = l ++ ['\n'] ∧ SpecPatCore l r g b) := by
    rintro r g b (hcore | ⟨l, hl, hcore⟩)
    · exact absurd (SpecPatCore_fourth _ _ _ _ hcore) (by decide)
    · have h2 : ("rgba(255,0,0,1)".data).getLast? = some '\n' := by
        rw [hl, List.getLast?_concat]
      exact absurd h2 (by decide)
  exact ⟨hno, c10_parser_language.2.1 "rgba(255,0,0,1)" hno⟩

/-- C10 counterexample: the string "rgb(1,2,3)\n" is not of the claimed
pattern (it carries a trailing newline after the closing parenthesis), yet the
parser accepts it and returns (1, 2, 3) instead of the fallback red. -/
theorem c10_counterexample :
    parse_rgba_force_70a "rgb(1,2,3)\n" = (1, 2, 3, 191) ∧
    ¬ ∃ r g b : ℕ, SpecPatCore ("rgb(1,2,3)\n".data) r g b := by
  constructor
  · have hm : matchRgb "rgb(1,2,3)\n".data = some (1, 2, 3) := by decide
    unfold parse_rgba_force_70a
    rw [hm, ALPHA_OVERRIDE_eq]
  · rintro ⟨r, g, b, hcore⟩
    exact absurd (SpecPatCore_last _ _ _ _ hcore) (by decide)

end Wotmap
